import Mathlib

/-!
Verification of the dynamic-ETL schema core (`dynamic_etl/schema.py`) and the
record/raw-dict boundary of the extraction engine (`dynamic_etl/parsers.py`).

The embedding is shallow: Python's duck-typed values are the tagged union
`Etl.Val`; Python dicts are association lists over `String` keys with the
update-in-place-or-append semantics of `dict.update` / `dict.__setitem__`;
CPython float arithmetic is modelled exactly over `Rat`, with `round(x, 2)`
modelled as round-half-to-even at two decimal places; `datetime.utcnow` is an
explicit `now` argument.  Fallible dictionary access (`record["data"]`) is
modelled with `Except String`.
-/

set_option autoImplicit false
set_option maxRecDepth 40000

namespace Etl

/-- Python structured value as produced by `json.loads` / `yaml.safe_load` and
handed between the extractors and the schema generator: `None`, `bool`, `int`,
`float`, `str`, `list`, `dict`. -/
inductive Val where
  | null
  | bool (b : Bool)
  | int (n : Int)
  | float (q : Rat)
  | str (s : String)
  | arr (elems : List Val)
  | obj (entries : List (String × Val))

/-- Python `value is None`. -/
def isNull : Val → Bool
  | .null => true
  | _ => false

/-- Keys of an association list modelling a Python dict (`dict.keys()`). -/
def keysOf {α : Type} (m : List (String × α)) : List String := m.map Prod.fst

/-- Python `d[k] = v` on a dict represented as an association list with unique
keys: replace the value at the first occurrence of `k`, else append. -/
def updEntry {α : Type} : List (String × α) → String → α → List (String × α)
  | [], k, v => [(k, v)]
  | p :: rest, k, v => if p.1 = k then (p.1, v) :: rest else p :: updEntry rest k v

/-- Python `d.update(news)` for dicts as association lists. -/
def updMany {α : Type} (items news : List (String × α)) : List (String × α) :=
  news.foldl (fun m kv => updEntry m kv.1 kv.2) items

/-- Python `d.get(k)` / `d[k]` lookup on a dict represented as an association
list with unique keys. -/
def lookupKey {α : Type} : List (String × α) → String → Option α
  | [], _ => none
  | p :: rest, k => if p.1 = k then some p.2 else lookupKey rest k

/-- Child path for a dict key in `flatten` (schema.py line 20):
`f"{prefix}.{key}" if prefix else key`. -/
def childPre (pre key : String) : String :=
  if pre = "" then key else pre ++ "." ++ key

mutual
/-- Embedding of `flatten` (schema.py lines 15-28): flatten nested dicts and
lists into dotted/bracketed paths.  The Python function builds a dict `items`
and calls `items.update(flatten(value, child_prefix))` per child, modelled by
`updMany` on the accumulator. -/
def flatten : Val → String → List (String × Val)
  | .obj entries, pre => flattenEntries entries pre []
  | .arr elems, pre => flattenElems elems pre 0 []
  | v, pre => [(pre, v)]

/-- Loop of `flatten` over the items of a dict, accumulating into `items`. -/
def flattenEntries : List (String × Val) → String → List (String × Val) → List (String × Val)
  | [], _, items => items
  | (k, v) :: rest, pre, items =>
      flattenEntries rest pre (updMany items (flatten v (childPre pre k)))

/-- Loop of `flatten` over the elements of a list with `enumerate` index,
accumulating into `items`. -/
def flattenElems : List Val → String → Nat → List (String × Val) → List (String × Val)
  | [], _, _, items => items
  | v :: rest, pre, idx, items =>
      flattenElems rest pre (idx + 1) (updMany items (flatten v (pre ++ "[" ++ toString idx ++ "]")))
end

mutual
/-- Specification-side flattening, written from the spec's words for claim C3:
an object key `k` under path `p` contributes the entries of its value under
`p.k`, a list element at index `i` contributes under `p[i]`, and a
non-container value at path `p` contributes the single entry `(p, value)`.
Children contribute in order by plain concatenation (no dict-update
collapsing), so it can be compared against the code-side `flatten`. -/
def flatList : Val → String → List (String × Val)
  | .obj entries, pre => flatListEntries entries pre
  | .arr elems, pre => flatListElems elems pre 0
  | v, pre => [(pre, v)]

/-- Entries contributed by the items of a dict, concatenated in order. -/
def flatListEntries : List (String × Val) → String → List (String × Val)
  | [], _ => []
  | (k, v) :: rest, pre => flatList v (childPre pre k) ++ flatListEntries rest pre

/-- Entries contributed by the elements of a list, concatenated in order. -/
def flatListElems : List Val → String → Nat → List (String × Val)
  | [], _, _ => []
  | v :: rest, pre, idx => flatList v (pre ++ "[" ++ toString idx ++ "]") ++ flatListElems rest pre (idx + 1)
end

/-- Embedding of `infer_type` (schema.py lines 31-44).  The Python code tests
`None`, then `bool`, then `int`, then `float`, then `list`, then `dict`, and
falls through to `"string"`; the constructors of `Val` are disjoint, so the
ordered chain of `isinstance` tests is exactly this case split (in particular
a `bool` is matched by the `bool` arm before the `int` arm can see it). -/
def infer_type : Val → String
  | .null => "null"
  | .bool _ => "boolean"
  | .int _ => "integer"
  | .float _ => "number"
  | .arr _ => "array"
  | .obj _ => "object"
  | .str _ => "string"

mutual
/-- Python `repr(value)` for structured values, used by `str` on containers.
Numeric formatting approximates CPython (a `Rat` prints as a fraction); no
claim in this development depends on the text of an example string. -/
def pyRepr : Val → String
  | .null => "None"
  | .bool true => "True"
  | .bool false => "False"
  | .int n => toString n
  | .float q => toString q
  | .str s => "\x27" ++ s ++ "\x27"
  | .arr elems => "[" ++ pyReprElems elems ++ "]"
  | .obj entries => "\x7b" ++ pyReprEntries entries ++ "\x7d"

/-- Comma-joined reprs of list elements. -/
def pyReprElems : List Val → String
  | [] => ""
  | [v] => pyRepr v
  | v :: rest => pyRepr v ++ ", " ++ pyReprElems rest

/-- Comma-joined `key: value` reprs of dict items. -/
def pyReprEntries : List (String × Val) → String
  | [] => ""
  | [(k, v)] => "\x27" ++ k ++ "\x27: " ++ pyRepr v
  | (k, v) :: rest => "\x27" ++ k ++ "\x27: " ++ pyRepr v ++ ", " ++ pyReprEntries rest
end

/-- Python `str(value)`: the string itself for `str`, else the repr. -/
def pyStr : Val → String
  | .str s => s
  | v => pyRepr v

/-- Python `s.add(x)` on a set modelled as a duplicate-free list in insertion
order.  CPython iterates a set in an unspecified order; the only facts used
about `examples` downstream are emptiness and that members were observed. -/
def insertSet (l : List String) (x : String) : List String :=
  if x ∈ l then l else l ++ [x]

/-- Record handed from the extraction engine to `SchemaGenerator.build`
(parsers.py builds dicts with keys `collection`, `data`, `source_range`). -/
structure Record where
  collection : String
  data : Val
  source_range : Int × Int := (-1, -1)

/-- Per-path accumulator of `SchemaGenerator.build` (schema.py lines 60-67):
the `defaultdict` entry `\x7bcount, nullable, examples, types\x7d`. -/
structure FieldStat where
  count : Nat
  nullable : Bool
  examples : List String
  types : List String
deriving DecidableEq

/-- Default `field_stats` entry (schema.py lines 61-66). -/
def emptyStat : FieldStat := ⟨0, false, [], []⟩

/-- Body of the statistics loop of `build` (schema.py lines 72-78): always
increment `count`; a `None` value sets `nullable`, any other value records a
truncated example string and its inferred type tag. -/
def addValue (st : FieldStat) (v : Val) : FieldStat :=
  if isNull v then
    { st with count := st.count + 1, nullable := true }
  else
    { st with
        count := st.count + 1
        examples := insertSet st.examples ((pyStr v).take 80)
        types := insertSet st.types (infer_type v) }

/-- Mutation `stats = field_stats[path]; ...` of the `defaultdict` keyed by
path: update in place if the path is present, else create the entry. -/
def statUpdate : List (String × FieldStat) → String → Val → List (String × FieldStat)
  | [], path, v => [(path, addValue emptyStat v)]
  | p :: rest, path, v =>
      if p.1 = path then (p.1, addValue p.2 v) :: rest else p :: statUpdate rest path v

/-- Flattened view of one record as consumed by `build` (schema.py line 70):
`flatten(record["data"], prefix=f"$.\x7brecord[collection]\x7d")`. -/
def flattenRec (r : Record) : List (String × Val) :=
  flatten r.data ("$." ++ r.collection)

/-- Statistics-aggregation loop of `build` (schema.py lines 69-78) over all
records. -/
def buildStats (records : List Record) : List (String × FieldStat) :=
  records.foldl (fun fs r => (flattenRec r).foldl (fun fs pv => statUpdate fs pv.1 pv.2) fs) []

/-- Values contributed at one path by one flattened record (the occurrences
`value` with `path == q` in the loop body); a specification-side definition
used to characterise the accumulated statistics. -/
def occAt (pvs : List (String × Val)) (q : String) : List Val :=
  pvs.filterMap (fun pv => if pv.1 = q then some pv.2 else none)

/-- Values contributed at one path across all records, in processing order;
their number is the path's occurrence count over the given records. -/
def contribs : List Record → String → List Val
  | [], _ => []
  | r :: rest, q => occAt (flattenRec r) q ++ contribs rest q

/-- Statistics accumulated from a list of contributed values. -/
def statOf (vs : List Val) : FieldStat := vs.foldl addValue emptyStat

/-- Step function describing how one contributed value transforms the optional
statistics entry of a path (the `defaultdict` creates the entry on first
touch). -/
def optStep (acc : Option FieldStat) (v : Val) : Option FieldStat :=
  some (addValue (acc.getD emptyStat) v)

instance : IsTotal (String × FieldStat) (fun a b => a.1 ≤ b.1) :=
  ⟨fun a b => le_total a.1 b.1⟩

instance : IsTrans (String × FieldStat) (fun a b => a.1 ≤ b.1) :=
  ⟨fun _ _ _ h1 h2 => le_trans h1 h2⟩

/-- Round-half-to-even on a rational, the tie-breaking rule of CPython's
builtin `round`. -/
def roundHalfEven (q : Rat) : Int :=
  let f := q.floor
  let r := q - (f : Rat)
  if r < 1 / 2 then f
  else if 1 / 2 < r then f + 1
  else if f % 2 = 0 then f else f + 1

/-- Python `round(x, 2)` (schema.py line 91) over the exact-rational model of
float arithmetic. -/
def ratRound2 (q : Rat) : Rat := (roundHalfEven (q * 100) : Rat) / 100

/-- Emitted schema field (schema.py lines 85-93). -/
structure Field where
  name : String
  path : String
  types : List String
  nullable : Bool
  example_value : Option String
  confidence : Rat
  suggested_index : Bool
deriving DecidableEq

/-- Construction of one `field_entry` from a path and its statistics
(schema.py lines 84-93): `sorted(types) or ["string"]`, an arbitrary retained
example via `next(iter(examples), None)` (modelled as the first inserted),
`min(0.99, count / total)` rounded to two decimals, and the
`path.endswith("id")` index heuristic. -/
def mkField (total : Nat) (path : String) (st : FieldStat) : Field :=
  let sortedTypes := List.insertionSort (· ≤ ·) st.types
  { name := (path.splitOn ".").getLastD ""
    path := path
    types := if sortedTypes.isEmpty then ["string"] else sortedTypes
    nullable := st.nullable
    example_value := st.examples.head?
    confidence := ratRound2 (min (99 / 100 : Rat) ((st.count : Rat) / ((max 1 total : Nat) : Rat)))
    suggested_index := path.endsWith "id" }

/-- Loop of `build` over the sorted statistics (schema.py lines 81-96):
append each field entry to `fields` and, when its `suggested_index` flag is
set, append its path to `primary_candidates`. -/
def fieldsLoop (total : Nat) (stats : List (String × FieldStat)) :
    List Field × List String :=
  stats.foldl
    (fun acc p =>
      let f := mkField total p.1 p.2
      (acc.1 ++ [f], if f.suggested_index then acc.2 ++ [f.path] else acc.2))
    ([], [])

/-- Python `sorted(field_stats.items())` (schema.py line 83): the statistics
dict has unique keys, so tuple comparison never inspects the second component
and the sort is by path string. -/
def sortStats (stats : List (String × FieldStat)) : List (String × FieldStat) :=
  List.insertionSort (fun a b => a.1 ≤ b.1) stats

/-- Embedding of `SchemaGenerator._map_type` (schema.py lines 125-136). -/
def mapType (types : List String) : String :=
  if "integer" ∈ types then "BIGINT"
  else if "number" ∈ types then "DOUBLE PRECISION"
  else if "boolean" ∈ types then "BOOLEAN"
  else if "array" ∈ types then "JSONB"
  else if "object" ∈ types then "JSONB"
  else "TEXT"

/-- Embedding of `SchemaGenerator._normalize_column` (schema.py lines 138-145). -/
def normalizeColumn (path : String) : String :=
  ((((path.replace "$." "").replace "[" "_").replace "]" "").replace "." "_").toLower

/-- Embedding of `SchemaGenerator._build_postgres_ddl` (schema.py lines
115-123); the Python `",\n".join(columns) or "    payload JSONB"` falls back
exactly when the column list is empty. -/
def buildPostgresDdl (source_id : String) (fields : List Field) : String :=
  let columns := fields.map (fun f =>
    "    " ++ normalizeColumn f.path ++ " " ++ mapType f.types ++
      (if f.nullable then "" else " NOT NULL"))
  let columnsStr := if columns.isEmpty then "    payload JSONB" else String.intercalate ",\n" columns
  "CREATE TABLE IF NOT EXISTS " ++ source_id ++ "_records (\n" ++ columnsStr ++ "\n);"

/-- Schema document (schema.py lines 99-112).  `generated_at` is the
`datetime.utcnow` timestamp, supplied as an argument to `build` in this
embedding; `migration_notes` is set from the diff just before `build`
returns. -/
structure Schema where
  schema_id : String
  source_id : String
  version : Nat
  generated_at : String
  compatible_dbs : List String
  fields : List Field
  primary_key_candidates : List String
  ddl : String
  migration_notes : String
deriving DecidableEq

/-- Diff report of `SchemaGenerator._diff` (schema.py lines 147-172).  The
initial-schema branch returns a dict without `removed`/`changed` keys, hence
the `Option` on those two fields. -/
structure DiffReport where
  added : List String
  removed : Option (List String)
  changed : Option (List String)
  notes : String
deriving DecidableEq

/-- Python `set(a) != set(b)` is the negation of this extensional equality of
string lists viewed as sets. -/
def listSetEq (a b : List String) : Bool :=
  (a.all fun x => decide (x ∈ b)) && (b.all fun x => decide (x ∈ a))

/-- Python dict comprehension `\x7bfield["path"]: field for field in fields\x7d`
(schema.py lines 151-152): insertion order of first occurrence, later
duplicate wins. -/
def fieldMap (fs : List Field) : List (String × Field) :=
  fs.foldl (fun m f => updEntry m f.path f) []

/-- The `SchemaGenerator` object; its only state is `compatible_dbs`
(schema.py lines 50-51). -/
structure SchemaGenerator where
  compatible_dbs : List String := ["mongodb", "postgresql"]

/-- Embedding of `SchemaGenerator._diff` (schema.py lines 147-172).  An absent
previous schema is the falsy case of `if not previous`. -/
def SchemaGenerator.diff (previous : Option Schema) (current : Schema) : DiffReport :=
  match previous with
  | none =>
      { added := current.fields.map (fun f => f.path)
        removed := none
        changed := none
        notes := "Initial schema." }
  | some prev =>
      let prevFields := fieldMap prev.fields
      let currFields := fieldMap current.fields
      let added := (currFields.filter (fun p => (lookupKey prevFields p.1).isNone)).map (fun p => p.1)
      let removed := (prevFields.filter (fun p => (lookupKey currFields p.1).isNone)).map (fun p => p.1)
      let changed := currFields.filterMap (fun p =>
        match lookupKey prevFields p.1 with
        | some prevField =>
            if !listSetEq p.2.types prevField.types || p.2.nullable != prevField.nullable then
              some p.1
            else none
        | none => none)
      let notesParts :=
        (if added.isEmpty then [] else ["Added fields: " ++ String.intercalate ", " added]) ++
        (if removed.isEmpty then [] else ["Removed fields: " ++ String.intercalate ", " removed]) ++
        (if changed.isEmpty then [] else ["Type/nullable changes: " ++ String.intercalate ", " changed])
      { added := added
        removed := some removed
        changed := some changed
        notes := String.intercalate "; " notesParts }

/-- Embedding of `SchemaGenerator.build` (schema.py lines 53-113): aggregate
per-path statistics over the flattened records, emit the sorted field list and
primary-key candidates, synthesise the DDL, compute the diff against the
previous schema, and record the migration notes (the diff dict is always
non-empty, so `if diff:` always takes the note). -/
def SchemaGenerator.build (g : SchemaGenerator) (source_id : String) (version : Nat)
    (records : List Record) (previous_schema : Option Schema) (now : String) :
    Schema × DiffReport :=
  let stats := sortStats (buildStats records)
  let fp := fieldsLoop records.length stats
  let schema_id := source_id ++ "_v" ++ toString version
  let schema : Schema :=
    { schema_id := schema_id
      source_id := source_id
      version := version
      generated_at := now
      compatible_dbs := g.compatible_dbs
      fields := fp.1
      primary_key_candidates := fp.2
      ddl := buildPostgresDdl source_id fp.1
      migration_notes := "" }
  let diffReport := SchemaGenerator.diff previous_schema schema
  ({ schema with migration_notes := diffReport.notes }, diffReport)

/-- Python `record["data"]` on a raw record dict: a missing key raises
`KeyError`. -/
def getData (r : List (String × Val)) : Except String Val :=
  match lookupKey r "data" with
  | some v => .ok v
  | none => .error "KeyError: data"

/-- Python `record["collection"]` on a raw record dict. -/
def getCollection (r : List (String × Val)) : Except String Val :=
  match lookupKey r "collection" with
  | some v => .ok v
  | none => .error "KeyError: collection"

/-- Reading one raw record dict in the loop of `build` (schema.py line 70):
`record["data"]` is evaluated before the f-string interpolating
`record["collection"]`, and the collection value is stringified by the
f-string. -/
def toRecord (r : List (String × Val)) : Except String Record :=
  match getData r with
  | .error e => .error e
  | .ok d =>
      match getCollection r with
      | .error e => .error e
      | .ok c => .ok { collection := pyStr c, data := d }

/-- Reading all raw record dicts in loop order; the first missing key aborts
the build with its `KeyError`. -/
def toRecords : List (List (String × Val)) → Except String (List Record)
  | [] => .ok []
  | r :: rest =>
      match toRecord r with
      | .error e => .error e
      | .ok rec =>
          match toRecords rest with
          | .error e => .error e
          | .ok recs => .ok (rec :: recs)

/-- Behaviour of `SchemaGenerator.build` on raw record dicts as stored in the
`records` list built by the parsers: the only failure the statistics loop can
raise is a `KeyError` for a record missing `data` or `collection`; every
value of a present `data` key is handled by `flatten` (its fallback arm
treats any non-container as a terminal), so no other shape of record aborts
the build. -/
def SchemaGenerator.buildRaw (g : SchemaGenerator) (source_id : String) (version : Nat)
    (raws : List (List (String × Val))) (previous_schema : Option Schema) (now : String) :
    Except String (Schema × DiffReport) :=
  match toRecords raws with
  | .error e => .error e
  | .ok records => .ok (g.build source_id version records previous_schema now)

/-- Concrete record with one integer field, used to instantiate claim C4. -/
def recW4 : Record := { collection := "c", data := Val.obj [("a", Val.int 1)] }

/-- Concrete record with an id-suffixed path, used to instantiate claim C5. -/
def recW5 : Record := { collection := "c", data := Val.obj [("uid", Val.bool true)] }

/-- Concrete record contributing a null at `$.c.a`, used to instantiate
claim C6. -/
def recW6a : Record := { collection := "c", data := Val.obj [("a", Val.null)] }

/-- Concrete record contributing a later boolean at `$.c.a`, used to
instantiate claim C6. -/
def recW6b : Record := { collection := "c", data := Val.obj [("a", Val.bool true)] }

/-- Concrete record whose only path carries a null, used to instantiate
claim C10. -/
def recW10 : Record := { collection := "c", data := Val.obj [("b", Val.null)] }

/-! Lemmas about the dict model. -/

@[simp] theorem keysOf_nil {α : Type} : keysOf ([] : List (String × α)) = [] := rfl

@[simp] theorem keysOf_cons {α : Type} (p : String × α) (m : List (String × α)) :
    keysOf (p :: m) = p.1 :: keysOf m := rfl

@[simp] theorem keysOf_append {α : Type} (a b : List (String × α)) :
    keysOf (a ++ b) = keysOf a ++ keysOf b := by
  simp [keysOf]

theorem lookupKey_updEntry {α : Type} (m : List (String × α)) (k : String) (v : α) (q : String) :
    lookupKey (updEntry m k v) q = if k = q then some v else lookupKey m q := by
  induction m with
  | nil => simp [updEntry, lookupKey]
  | cons p rest ih =>
      simp only [updEntry]
      by_cases hpk : p.1 = k
      · rw [if_pos hpk]
        by_cases hq : k = q
        · simp [lookupKey, hq, hpk.trans hq]
        · have hpq : ¬ p.1 = q := fun h => hq (hpk.symm.trans h)
          simp [lookupKey, hq, hpq]
      · rw [if_neg hpk]
        by_cases hq : p.1 = q
        · have hkq : ¬ k = q := fun h => hpk (hq.trans h.symm)
          simp [lookupKey, hq, hkq]
        · simp [lookupKey, hq, ih]

theorem keysOf_updEntry {α : Type} (m : List (String × α)) (k : String) (v : α) :
    keysOf (updEntry m k v) = if k ∈ keysOf m then keysOf m else keysOf m ++ [k] := by
  induction m with
  | nil => simp [updEntry]
  | cons p rest ih =>
      simp only [updEntry]
      by_cases hpk : p.1 = k
      · rw [if_pos hpk, if_pos (by simp [hpk.symm])]
        simp [hpk]
      · rw [if_neg hpk, keysOf_cons]
        have hne : ¬ k = p.1 := fun h => hpk h.symm
        by_cases hk : k ∈ keysOf rest
        · rw [if_pos (by simp [hk]), keysOf_cons, ih, if_pos hk]
        · rw [if_neg (by simp [hne, hk]), keysOf_cons, ih, if_neg hk]
          simp

theorem nodup_keysOf_updEntry {α : Type} (m : List (String × α)) (k : String) (v : α)
    (h : (keysOf m).Nodup) : (keysOf (updEntry m k v)).Nodup := by
  rw [keysOf_updEntry]
  by_cases hk : k ∈ keysOf m
  · simpa [hk]
  · simpa [hk, List.nodup_append]

theorem updEntry_of_not_mem {α : Type} (m : List (String × α)) (k : String) (v : α)
    (h : k ∉ keysOf m) : updEntry m k v = m ++ [(k, v)] := by
  induction m with
  | nil => simp [updEntry]
  | cons p rest ih =>
      rw [keysOf_cons] at h
      have h1 : ¬ p.1 = k := fun hpk => h (by simp [hpk])
      have h2 : k ∉ keysOf rest := fun hk => h (List.mem_cons_of_mem _ hk)
      simp [updEntry, h1, ih h2]

theorem lookupKey_isSome_of_mem {α : Type} {m : List (String × α)} {k : String} {v : α}
    (h : (k, v) ∈ m) : (lookupKey m k).isSome := by
  induction m with
  | nil => cases h
  | cons p rest ih =>
      rcases List.mem_cons.mp h with h1 | h1
      · simp [lookupKey, ← h1]
      · by_cases hp : p.1 = k
        · simp [lookupKey, hp]
        · simp only [lookupKey, if_neg hp]
          exact ih h1

theorem lookupKey_eq_of_mem {α : Type} {m : List (String × α)} {k : String} {v : α}
    (hnd : (keysOf m).Nodup) (h : (k, v) ∈ m) : lookupKey m k = some v := by
  induction m with
  | nil => cases h
  | cons p rest ih =>
      rw [keysOf_cons] at hnd
      obtain ⟨hp1, hnd2⟩ := List.nodup_cons.mp hnd
      rcases List.mem_cons.mp h with h1 | h1
      · subst h1
        simp [lookupKey]
      · have hpk : ¬ p.1 = k := by
          intro hpk
          exact hp1 (hpk ▸ List.mem_map_of_mem Prod.fst h1)
        simp only [lookupKey, if_neg hpk]
        exact ih hnd2 h1

theorem mem_of_lookupKey_eq {α : Type} {m : List (String × α)} {k : String} {v : α}
    (h : lookupKey m k = some v) : (k, v) ∈ m := by
  induction m with
  | nil => simp [lookupKey] at h
  | cons p rest ih =>
      by_cases hp : p.1 = k
      · simp only [lookupKey, if_pos hp] at h
        obtain ⟨p1, p2⟩ := p
        obtain rfl := hp
        obtain rfl := Option.some_injective _ h
        exact List.mem_cons_self _ _
      · simp only [lookupKey, if_neg hp] at h
        exact List.mem_cons_of_mem _ (ih h)

theorem updMany_of_disjoint {α : Type} (news : List (String × α)) :
    ∀ m : List (String × α), (keysOf news).Nodup →
      (∀ x ∈ keysOf news, x ∉ keysOf m) → updMany m news = m ++ news := by
  induction news with
  | nil => intro m _ _; simp [updMany]
  | cons kv rest ih =>
      intro m hnd hdisj
      rw [keysOf_cons] at hnd hdisj
      have hk : kv.1 ∉ keysOf m := hdisj kv.1 (List.mem_cons_self _ _)
      obtain ⟨hkr, hndr⟩ := List.nodup_cons.mp hnd
      have step : updMany m (kv :: rest) = updMany (m ++ [kv]) rest := by
        simp [updMany, updEntry_of_not_mem m kv.1 kv.2 hk]
      have hdisj2 : ∀ x ∈ keysOf rest, x ∉ keysOf (m ++ [kv]) := by
        intro x hx hmem
        rw [keysOf_append, keysOf_cons, keysOf_nil] at hmem
        rcases List.mem_append.mp hmem with hxm | hxk
        · exact hdisj x (List.mem_cons_of_mem _ hx) hxm
        · have hx1 : x = kv.1 := by simpa using hxk
          exact hkr (hx1 ▸ hx)
      rw [step, ih (m ++ [kv]) hndr hdisj2]
      simp

/-! Lemmas about the statistics dict. -/

theorem lookupKey_statUpdate (m : List (String × FieldStat)) (path : String) (v : Val)
    (q : String) :
    lookupKey (statUpdate m path v) q =
      if path = q then some (addValue ((lookupKey m q).getD emptyStat) v)
      else lookupKey m q := by
  induction m with
  | nil => simp [statUpdate, lookupKey]
  | cons p rest ih =>
      simp only [statUpdate]
      by_cases hpk : p.1 = path
      · rw [if_pos hpk]
        by_cases hq : path = q
        · simp [lookupKey, hq, hpk.trans hq]
        · have hpq : ¬ p.1 = q := fun h => hq (hpk.symm.trans h)
          simp [lookupKey, hq, hpq]
      · rw [if_neg hpk]
        by_cases hq : p.1 = q
        · have hkq : ¬ path = q := fun h => hpk (hq.trans h.symm)
          simp [lookupKey, hq, hkq]
        · simp [lookupKey, hq, ih]

theorem keysOf_statUpdate (m : List (String × FieldStat)) (path : String) (v : Val) :
    keysOf (statUpdate m path v) =
      if path ∈ keysOf m then keysOf m else keysOf m ++ [path] := by
  induction m with
  | nil => simp [statUpdate]
  | cons p rest ih =>
      simp only [statUpdate]
      by_cases hpk : p.1 = path
      · rw [if_pos hpk, if_pos (by simp [hpk.symm])]
        simp [hpk]
      · rw [if_neg hpk, keysOf_cons]
        have hne : ¬ path = p.1 := fun h => hpk h.symm
        by_cases hk : path ∈ keysOf rest
        · rw [if_pos (by simp [hk]), keysOf_cons, ih, if_pos hk]
        · rw [if_neg (by simp [hne, hk]), keysOf_cons, ih, if_neg hk]
          simp

theorem nodup_keysOf_statUpdate (m : List (String × FieldStat)) (path : String) (v : Val)
    (h : (keysOf m).Nodup) : (keysOf (statUpdate m path v)).Nodup := by
  rw [keysOf_statUpdate]
  by_cases hk : path ∈ keysOf m
  · simpa [hk]
  · simpa [hk, List.nodup_append]

theorem lookupKey_statFold (pvs : List (String × Val)) :
    ∀ (m : List (String × FieldStat)) (q : String),
      lookupKey (pvs.foldl (fun fs pv => statUpdate fs pv.1 pv.2) m) q =
        (occAt pvs q).foldl optStep (lookupKey m q) := by
  induction pvs with
  | nil => intro m q; simp [occAt]
  | cons pv rest ih =>
      intro m q
      rw [List.foldl_cons, ih]
      by_cases h : pv.1 = q
      · have hocc : occAt (pv :: rest) q = pv.2 :: occAt rest q := by
          simp [occAt, h]
        rw [hocc, List.foldl_cons]
        congr 1
        rw [lookupKey_statUpdate, if_pos h]
        rfl
      · have hocc : occAt (pv :: rest) q = occAt rest q := by
          simp [occAt, h]
        rw [hocc]
        congr 1
        rw [lookupKey_statUpdate, if_neg h]

theorem lookupKey_buildStats (records : List Record) (q : String) :
    lookupKey (buildStats records) q = (contribs records q).foldl optStep none := by
  suffices h : ∀ m,
      lookupKey (records.foldl
        (fun fs r => (flattenRec r).foldl (fun fs pv => statUpdate fs pv.1 pv.2) fs) m) q =
        (contribs records q).foldl optStep (lookupKey m q) by
    simpa [buildStats, lookupKey] using h []
  induction records with
  | nil => intro m; simp [contribs]
  | cons r rest ih =>
      intro m
      rw [List.foldl_cons, ih, contribs, List.foldl_append, lookupKey_statFold]

theorem foldl_optStep_some (vs : List Val) :
    ∀ st : FieldStat, vs.foldl optStep (some st) = some (vs.foldl addValue st) := by
  induction vs with
  | nil => intro st; rfl
  | cons v rest ih => intro st; simp [optStep, List.foldl_cons, ih]

theorem lookupKey_buildStats_of_ne_nil (records : List Record) (q : String)
    (h : contribs records q ≠ []) :
    lookupKey (buildStats records) q = some (statOf (contribs records q)) := by
  rw [lookupKey_buildStats]
  obtain ⟨v, rest, hv⟩ := List.exists_cons_of_ne_nil h
  rw [hv, List.foldl_cons, show optStep none v = some (addValue emptyStat v) from rfl,
    foldl_optStep_some]
  rfl

theorem lookupKey_buildStats_of_nil (records : List Record) (q : String)
    (h : contribs records q = []) : lookupKey (buildStats records) q = none := by
  rw [lookupKey_buildStats, h]
  rfl

theorem statOf_of_lookup {records : List Record} {q : String} {st : FieldStat}
    (h : lookupKey (buildStats records) q = some st) :
    contribs records q ≠ [] ∧ st = statOf (contribs records q) := by
  by_cases hc : contribs records q = []
  · rw [lookupKey_buildStats_of_nil records q hc] at h
    cases h
  · refine ⟨hc, ?_⟩
    rw [lookupKey_buildStats_of_ne_nil records q hc] at h
    exact (Option.some_injective _ h).symm

theorem nodup_keysOf_statFold (pvs : List (String × Val)) :
    ∀ m, (keysOf m).Nodup →
      (keysOf (pvs.foldl (fun fs pv => statUpdate fs pv.1 pv.2) m)).Nodup := by
  induction pvs with
  | nil => intro m h; exact h
  | cons pv rest ih => intro m h; exact ih _ (nodup_keysOf_statUpdate _ _ _ h)

theorem nodup_keysOf_buildStats (records : List Record) :
    (keysOf (buildStats records)).Nodup := by
  suffices h : ∀ m, (keysOf m).Nodup →
      (keysOf (records.foldl
        (fun fs r => (flattenRec r).foldl (fun fs pv => statUpdate fs pv.1 pv.2) fs) m)).Nodup by
    exact h [] (by simp)
  induction records with
  | nil => intro m h; exact h
  | cons r rest ih => intro m h; exact ih _ (nodup_keysOf_statFold _ _ h)

/-! Lemmas about the accumulated statistics of one path. -/

theorem count_foldl_addValue (vs : List Val) :
    ∀ st : FieldStat, (vs.foldl addValue st).count = st.count + vs.length := by
  induction vs with
  | nil => intro st; simp
  | cons v rest ih =>
      intro st
      rw [List.foldl_cons, ih]
      have h : (addValue st v).count = st.count + 1 := by
        unfold addValue
        split <;> rfl
      rw [h, List.length_cons]
      omega

theorem nullable_foldl_addValue (vs : List Val) :
    ∀ st : FieldStat, (vs.foldl addValue st).nullable = (st.nullable || vs.any isNull) := by
  induction vs with
  | nil => intro st; simp
  | cons v rest ih =>
      intro st
      rw [List.foldl_cons, ih, List.any_cons]
      have h : (addValue st v).nullable = (st.nullable || isNull v) := by
        unfold addValue
        split
        · next hn => simp [hn]
        · next hn =>
            have hf : isNull v = false := by
              revert hn
              cases isNull v <;> simp
            simp [hf]
      rw [h, Bool.or_assoc]

theorem mem_types_foldl_addValue (vs : List Val) :
    ∀ (st : FieldStat) (t : String),
      t ∈ (vs.foldl addValue st).types ↔
        t ∈ st.types ∨ ∃ v ∈ vs, isNull v = false ∧ infer_type v = t := by
  induction vs with
  | nil => intro st t; simp
  | cons v rest ih =>
      intro st t
      rw [List.foldl_cons, ih]
      have htypes : (addValue st v).types =
          if isNull v then st.types else insertSet st.types (infer_type v) := by
        unfold addValue
        split
        · next hn => simp [hn]
        · next hn => simp [hn]
      rw [htypes]
      by_cases hn : isNull v = true
      · rw [if_pos hn]
        constructor
        · rintro (h | ⟨w, hw, hnw, hiw⟩)
          · exact .inl h
          · exact .inr ⟨w, List.mem_cons_of_mem _ hw, hnw, hiw⟩
        · rintro (h | ⟨w, hw, hnw, hiw⟩)
          · exact .inl h
          · rcases List.mem_cons.mp hw with rfl | hw2
            · rw [hn] at hnw
              cases hnw
            · exact .inr ⟨w, hw2, hnw, hiw⟩
      · rw [if_neg hn]
        have hnf : isNull v = false := Bool.not_eq_true _ ▸ hn
        have hmem : t ∈ insertSet st.types (infer_type v) ↔
            t ∈ st.types ∨ t = infer_type v := by
          unfold insertSet
          split
          · next hin =>
              constructor
              · exact fun h => .inl h
              · rintro (h | rfl)
                · exact h
                · exact hin
          · next _ => simp
        rw [hmem]
        constructor
        · rintro ((h | rfl) | ⟨w, hw, hnw, hiw⟩)
          · exact .inl h
          · exact .inr ⟨v, List.mem_cons_self _ _, hnf, rfl⟩
          · exact .inr ⟨w, List.mem_cons_of_mem _ hw, hnw, hiw⟩
        · rintro (h | ⟨w, hw, hnw, hiw⟩)
          · exact .inl (.inl h)
          · rcases List.mem_cons.mp hw with rfl | hw2
            · exact .inl (.inr hiw.symm)
            · exact .inr ⟨w, hw2, hnw, hiw⟩

theorem types_foldl_addValue_of_all_null (vs : List Val) :
    ∀ st : FieldStat, (∀ v ∈ vs, isNull v = true) → (vs.foldl addValue st).types = st.types := by
  induction vs with
  | nil => intro st _; rfl
  | cons v rest ih =>
      intro st h
      rw [List.foldl_cons]
      have hv : (addValue st v).types = st.types := by
        unfold addValue
        rw [if_pos (h v (List.mem_cons_self _ _))]
      rw [ih _ (fun w hw => h w (List.mem_cons_of_mem _ hw)), hv]

theorem examples_foldl_addValue_of_all_null (vs : List Val) :
    ∀ st : FieldStat, (∀ v ∈ vs, isNull v = true) →
      (vs.foldl addValue st).examples = st.examples := by
  induction vs with
  | nil => intro st _; rfl
  | cons v rest ih =>
      intro st h
      rw [List.foldl_cons]
      have hv : (addValue st v).examples = st.examples := by
        unfold addValue
        rw [if_pos (h v (List.mem_cons_self _ _))]
      rw [ih _ (fun w hw => h w (List.mem_cons_of_mem _ hw)), hv]

theorem infer_type_ne_null (v : Val) (h : isNull v = false) : infer_type v ≠ "null" := by
  cases v with
  | null => simp [isNull] at h
  | bool b => exact (by decide : ("boolean" : String) ≠ "null")
  | int n => exact (by decide : ("integer" : String) ≠ "null")
  | float q => exact (by decide : ("number" : String) ≠ "null")
  | str s => exact (by decide : ("string" : String) ≠ "null")
  | arr elems => exact (by decide : ("array" : String) ≠ "null")
  | obj entries => exact (by decide : ("object" : String) ≠ "null")

/-! Lemmas about the field-emission loop and the built schema. -/

@[simp] theorem mkField_path (total : Nat) (path : String) (st : FieldStat) :
    (mkField total path st).path = path := rfl

@[simp] theorem mkField_nullable (total : Nat) (path : String) (st : FieldStat) :
    (mkField total path st).nullable = st.nullable := rfl

@[simp] theorem mkField_example_value (total : Nat) (path : String) (st : FieldStat) :
    (mkField total path st).example_value = st.examples.head? := rfl

@[simp] theorem mkField_suggested (total : Nat) (path : String) (st : FieldStat) :
    (mkField total path st).suggested_index = path.endsWith "id" := rfl

@[simp] theorem mkField_confidence (total : Nat) (path : String) (st : FieldStat) :
    (mkField total path st).confidence =
      ratRound2 (min (99 / 100 : Rat) ((st.count : Rat) / ((max 1 total : Nat) : Rat))) := rfl

theorem mkField_types (total : Nat) (path : String) (st : FieldStat) :
    (mkField total path st).types =
      if (List.insertionSort (· ≤ ·) st.types).isEmpty then ["string"]
      else List.insertionSort (· ≤ ·) st.types := rfl

theorem fieldsLoop_eq (total : Nat) (stats : List (String × FieldStat)) :
    fieldsLoop total stats =
      (stats.map (fun p => mkField total p.1 p.2),
       ((stats.map (fun p => mkField total p.1 p.2)).filter
          (fun f => f.suggested_index)).map (fun f => f.path)) := by
  suffices h : ∀ (fs : List Field) (pk : List String),
      stats.foldl
        (fun acc p =>
          let f := mkField total p.1 p.2
          (acc.1 ++ [f], if f.suggested_index then acc.2 ++ [f.path] else acc.2))
        (fs, pk) =
        (fs ++ stats.map (fun p => mkField total p.1 p.2),
         pk ++ ((stats.map (fun p => mkField total p.1 p.2)).filter
            (fun f => f.suggested_index)).map (fun f => f.path)) by
    simpa [fieldsLoop] using h [] []
  induction stats with
  | nil => intro fs pk; simp
  | cons p rest ih =>
      intro fs pk
      simp only [List.foldl_cons]
      rw [ih]
      by_cases hs : p.1.endsWith "id" = true
      · simp [hs, List.filter_cons]
      · simp [hs, List.filter_cons]

theorem build_fields (g : SchemaGenerator) (sid : String) (ver : Nat) (records : List Record)
    (prev : Option Schema) (now : String) :
    (g.build sid ver records prev now).1.fields =
      (sortStats (buildStats records)).map (fun p => mkField records.length p.1 p.2) := by
  simp [SchemaGenerator.build, fieldsLoop_eq]

theorem build_primary (g : SchemaGenerator) (sid : String) (ver : Nat) (records : List Record)
    (prev : Option Schema) (now : String) :
    (g.build sid ver records prev now).1.primary_key_candidates =
      ((g.build sid ver records prev now).1.fields.filter
        (fun f => f.suggested_index)).map (fun f => f.path) := by
  simp [SchemaGenerator.build, fieldsLoop_eq]

theorem mem_build_fields {g : SchemaGenerator} {sid : String} {ver : Nat}
    {records : List Record} {prev : Option Schema} {now : String} {f : Field} :
    f ∈ (g.build sid ver records prev now).1.fields ↔
      ∃ p ∈ buildStats records, f = mkField records.length p.1 p.2 := by
  rw [build_fields, List.mem_map]
  constructor
  · rintro ⟨p, hp, rfl⟩
    exact ⟨p, (List.perm_insertionSort _ _).mem_iff.mp hp, rfl⟩
  · rintro ⟨p, hp, rfl⟩
    exact ⟨p, (List.perm_insertionSort _ _).mem_iff.mpr hp, rfl⟩

theorem build_fields_sorted (g : SchemaGenerator) (sid : String) (ver : Nat)
    (records : List Record) (prev : Option Schema) (now : String) :
    List.Pairwise (fun a b : Field => a.path ≤ b.path)
      (g.build sid ver records prev now).1.fields := by
  rw [build_fields]
  have h : List.Pairwise (fun a b : String × FieldStat => a.1 ≤ b.1)
      (sortStats (buildStats records)) :=
    List.sorted_insertionSort _ _
  exact List.Pairwise.map _ (fun a b hab => by simpa using hab) h

/-! Lemmas about the diff. -/

theorem listSetEq_self (l : List String) : listSetEq l l = true := by
  simp [listSetEq, List.all_eq_true]

theorem nodup_keysOf_fieldMap (fs : List Field) : (keysOf (fieldMap fs)).Nodup := by
  suffices h : ∀ m, (keysOf m).Nodup →
      (keysOf (fs.foldl (fun m f => updEntry m f.path f) m)).Nodup from h [] (by simp)
  induction fs with
  | nil => intro m h; exact h
  | cons f rest ih => intro m h; exact ih _ (nodup_keysOf_updEntry _ _ _ h)

/-! Lemmas connecting the dict-building `flatten` of the code with the
concatenation-style `flatList` of the spec. -/

theorem nodup_keysOf_updMany {α : Type} (news : List (String × α)) :
    ∀ m, (keysOf m).Nodup → (keysOf (updMany m news)).Nodup := by
  induction news with
  | nil => intro m h; exact h
  | cons kv rest ih =>
      intro m h
      have step : updMany m (kv :: rest) = updMany (updEntry m kv.1 kv.2) rest := by
        simp [updMany]
      rw [step]
      exact ih _ (nodup_keysOf_updEntry _ _ _ h)

theorem nodup_keysOf_flattenEntries (entries : List (String × Val)) :
    ∀ (pre : String) (items : List (String × Val)), (keysOf items).Nodup →
      (keysOf (flattenEntries entries pre items)).Nodup := by
  induction entries with
  | nil => intro pre items h; simpa [flattenEntries] using h
  | cons kv rest ih =>
      intro pre items h
      obtain ⟨k, v⟩ := kv
      rw [show flattenEntries ((k, v) :: rest) pre items =
        flattenEntries rest pre (updMany items (flatten v (childPre pre k))) from rfl]
      exact ih _ _ (nodup_keysOf_updMany _ _ h)

theorem nodup_keysOf_flattenElems (elems : List Val) :
    ∀ (pre : String) (idx : Nat) (items : List (String × Val)), (keysOf items).Nodup →
      (keysOf (flattenElems elems pre idx items)).Nodup := by
  induction elems with
  | nil => intro pre idx items h; simpa [flattenElems] using h
  | cons v rest ih =>
      intro pre idx items h
      rw [show flattenElems (v :: rest) pre idx items =
        flattenElems rest pre (idx + 1)
          (updMany items (flatten v (pre ++ "[" ++ toString idx ++ "]"))) from rfl]
      exact ih _ _ _ (nodup_keysOf_updMany _ _ h)

theorem nodup_keysOf_flatten (v : Val) (pre : String) : (keysOf (flatten v pre)).Nodup := by
  cases v with
  | obj entries => exact nodup_keysOf_flattenEntries entries pre [] (by simp)
  | arr elems => exact nodup_keysOf_flattenElems elems pre 0 [] (by simp)
  | null => simp [flatten]
  | bool b => simp [flatten]
  | int n => simp [flatten]
  | float q => simp [flatten]
  | str s => simp [flatten]

mutual
theorem flatten_eq_flatList : ∀ (v : Val) (pre : String),
    (keysOf (flatList v pre)).Nodup → flatten v pre = flatList v pre
  | .null, _, _ => rfl
  | .bool _, _, _ => rfl
  | .int _, _, _ => rfl
  | .float _, _, _ => rfl
  | .str _, _, _ => rfl
  | .obj entries, pre, h => by
      rw [show flatten (Val.obj entries) pre = flattenEntries entries pre [] from rfl,
        show flatList (Val.obj entries) pre = flatListEntries entries pre from rfl]
      have h2 : (keysOf (([] : List (String × Val)) ++ flatListEntries entries pre)).Nodup := by
        simpa using h
      simpa using flattenEntries_eq_flatList entries pre [] h2
  | .arr elems, pre, h => by
      rw [show flatten (Val.arr elems) pre = flattenElems elems pre 0 [] from rfl,
        show flatList (Val.arr elems) pre = flatListElems elems pre 0 from rfl]
      have h2 : (keysOf (([] : List (String × Val)) ++ flatListElems elems pre 0)).Nodup := by
        simpa using h
      simpa using flattenElems_eq_flatList elems pre 0 [] h2

theorem flattenEntries_eq_flatList : ∀ (entries : List (String × Val)) (pre : String)
    (items : List (String × Val)),
    (keysOf (items ++ flatListEntries entries pre)).Nodup →
    flattenEntries entries pre items = items ++ flatListEntries entries pre
  | [], pre, items, _ => by
      simp [flattenEntries, flatListEntries]
  | (k, v) :: rest, pre, items, h => by
      rw [show flatListEntries ((k, v) :: rest) pre =
        flatList v (childPre pre k) ++ flatListEntries rest pre from rfl] at h ⊢
      rw [show flattenEntries ((k, v) :: rest) pre items =
        flattenEntries rest pre (updMany items (flatten v (childPre pre k))) from rfl]
      rw [keysOf_append, keysOf_append] at h
      have hnd := h
      rw [List.nodup_append] at hnd
      obtain ⟨hndItems, hndMid, hdisjItems⟩ := hnd
      rw [List.nodup_append] at hndMid
      obtain ⟨hndFL, hndRest, _⟩ := hndMid
      have hflat : flatten v (childPre pre k) = flatList v (childPre pre k) :=
        flatten_eq_flatList v (childPre pre k) hndFL
      have hdisj2 : ∀ x ∈ keysOf (flatList v (childPre pre k)), x ∉ keysOf items := by
        intro x hx hxm
        exact hdisjItems hxm (List.mem_append.mpr (.inl hx))
      have hupd : updMany items (flatten v (childPre pre k)) =
          items ++ flatList v (childPre pre k) := by
        rw [hflat]
        exact updMany_of_disjoint _ _ hndFL hdisj2
      have happ : (keysOf ((items ++ flatList v (childPre pre k)) ++
          flatListEntries rest pre)).Nodup := by
        rw [keysOf_append, keysOf_append]
        rw [← List.append_assoc] at h
        exact h
      rw [hupd, flattenEntries_eq_flatList rest pre
        (items ++ flatList v (childPre pre k)) happ]
      rw [List.append_assoc]

theorem flattenElems_eq_flatList : ∀ (elems : List Val) (pre : String) (idx : Nat)
    (items : List (String × Val)),
    (keysOf (items ++ flatListElems elems pre idx)).Nodup →
    flattenElems elems pre idx items = items ++ flatListElems elems pre idx
  | [], pre, idx, items, _ => by
      simp [flattenElems, flatListElems]
  | v :: rest, pre, idx, items, h => by
      rw [show flatListElems (v :: rest) pre idx =
        flatList v (pre ++ "[" ++ toString idx ++ "]") ++ flatListElems rest pre (idx + 1)
        from rfl] at h ⊢
      rw [show flattenElems (v :: rest) pre idx items =
        flattenElems rest pre (idx + 1)
          (updMany items (flatten v (pre ++ "[" ++ toString idx ++ "]"))) from rfl]
      rw [keysOf_append, keysOf_append] at h
      have hnd := h
      rw [List.nodup_append] at hnd
      obtain ⟨hndItems, hndMid, hdisjItems⟩ := hnd
      rw [List.nodup_append] at hndMid
      obtain ⟨hndFL, hndRest, _⟩ := hndMid
      have hflat : flatten v (pre ++ "[" ++ toString idx ++ "]") =
          flatList v (pre ++ "[" ++ toString idx ++ "]") :=
        flatten_eq_flatList v (pre ++ "[" ++ toString idx ++ "]") hndFL
      have hdisj2 : ∀ x ∈ keysOf (flatList v (pre ++ "[" ++ toString idx ++ "]")),
          x ∉ keysOf items := by
        intro x hx hxm
        exact hdisjItems hxm (List.mem_append.mpr (.inl hx))
      have hupd : updMany items (flatten v (pre ++ "[" ++ toString idx ++ "]")) =
          items ++ flatList v (pre ++ "[" ++ toString idx ++ "]") := by
        rw [hflat]
        exact updMany_of_disjoint _ _ hndFL hdisj2
      have happ : (keysOf ((items ++ flatList v (pre ++ "[" ++ toString idx ++ "]")) ++
          flatListElems rest pre (idx + 1))).Nodup := by
        rw [keysOf_append, keysOf_append]
        rw [← List.append_assoc] at h
        exact h
      rw [hupd, flattenElems_eq_flatList rest pre (idx + 1)
        (items ++ flatList v (pre ++ "[" ++ toString idx ++ "]")) happ]
      rw [List.append_assoc]
end

/-! Lemmas about the rounding of confidences. -/

theorem roundHalfEven_nonneg (q : Rat) (h : 0 ≤ q) : 0 ≤ roundHalfEven q := by
  have hf : (0 : Int) ≤ q.floor := Rat.le_floor.mpr (by exact_mod_cast h)
  simp only [roundHalfEven]
  split
  · exact hf
  · split
    · omega
    · split
      · exact hf
      · omega

theorem roundHalfEven_le (q : Rat) (n : Int) (h : q ≤ (n : Rat)) : roundHalfEven q ≤ n := by
  have hfl : (q.floor : Rat) ≤ q := Rat.le_floor.mp le_rfl
  have hfn : q.floor ≤ n := by
    by_contra hcon
    push_neg at hcon
    have h1 : ((n + 1 : Int) : Rat) ≤ q := Rat.le_floor.mp (by omega)
    push_cast at h1
    linarith
  have hup : ¬ q - (q.floor : Rat) < 1 / 2 → q.floor + 1 ≤ n := by
    intro hr
    push_neg at hr
    have hlt : (q.floor : Rat) < (n : Rat) := by linarith
    have : q.floor < n := by exact_mod_cast hlt
    omega
  simp only [roundHalfEven]
  split
  · exact hfn
  · next hr1 =>
      split
      · exact hup hr1
      · split
        · exact hfn
        · exact hup hr1

theorem ratRound2_bounds (q : Rat) (h0 : 0 ≤ q) (h99 : q ≤ 99 / 100) :
    0 ≤ ratRound2 q ∧ ratRound2 q ≤ 99 / 100 := by
  have h1 : 0 ≤ roundHalfEven (q * 100) := roundHalfEven_nonneg _ (by linarith)
  have h2 : roundHalfEven (q * 100) ≤ 99 := roundHalfEven_le _ 99 (by push_cast; linarith)
  constructor
  · unfold ratRound2
    apply div_nonneg _ (by norm_num)
    exact_mod_cast h1
  · unfold ratRound2
    rw [div_le_div_iff₀ (by norm_num) (by norm_num)]
    linarith [show ((roundHalfEven (q * 100) : Int) : Rat) ≤ 99 from by exact_mod_cast h2]

/-! Projections of the accumulated statistics of one path. -/

theorem statOf_count (vs : List Val) : (statOf vs).count = vs.length := by
  simpa [statOf, emptyStat] using count_foldl_addValue vs emptyStat

theorem statOf_nullable (vs : List Val) : (statOf vs).nullable = vs.any isNull := by
  simpa [statOf, emptyStat] using nullable_foldl_addValue vs emptyStat

theorem mem_statOf_types (vs : List Val) (t : String) :
    t ∈ (statOf vs).types ↔ ∃ v ∈ vs, isNull v = false ∧ infer_type v = t := by
  simpa [statOf, emptyStat] using mem_types_foldl_addValue vs emptyStat t

theorem statOf_types_of_all_null (vs : List Val) (h : ∀ v ∈ vs, isNull v = true) :
    (statOf vs).types = [] := by
  simpa [statOf, emptyStat] using types_foldl_addValue_of_all_null vs emptyStat h

theorem statOf_examples_of_all_null (vs : List Val) (h : ∀ v ∈ vs, isNull v = true) :
    (statOf vs).examples = [] := by
  simpa [statOf, emptyStat] using examples_foldl_addValue_of_all_null vs emptyStat h

/-! Lemmas about the raw-record boundary of the build. -/

theorem toRecord_error_shape (r : List (String × Val)) (e : String)
    (h : toRecord r = .error e) :
    e = "KeyError: data" ∨ e = "KeyError: collection" := by
  unfold toRecord getData getCollection at h
  cases hd : lookupKey r "data" with
  | none =>
      rw [hd] at h
      simp at h
      exact .inl h.symm
  | some d =>
      rw [hd] at h
      cases hc : lookupKey r "collection" with
      | none =>
          rw [hc] at h
          simp at h
          exact .inr h.symm
      | some c =>
          rw [hc] at h
          simp at h

theorem toRecords_ok (raws : List (List (String × Val)))
    (h : ∀ r ∈ raws, (lookupKey r "data").isSome ∧ (lookupKey r "collection").isSome) :
    ∃ recs, toRecords raws = .ok recs := by
  induction raws with
  | nil => exact ⟨[], rfl⟩
  | cons r rest ih =>
      obtain ⟨hd, hc⟩ := h r (List.mem_cons_self _ _)
      obtain ⟨d, hdv⟩ := Option.isSome_iff_exists.mp hd
      obtain ⟨c, hcv⟩ := Option.isSome_iff_exists.mp hc
      obtain ⟨recs, hrecs⟩ := ih (fun x hx => h x (List.mem_cons_of_mem _ hx))
      refine ⟨{ collection := pyStr c, data := d } :: recs, ?_⟩
      simp [toRecords, toRecord, getData, getCollection, hdv, hcv, hrecs]

theorem toRecords_error_shape (raws : List (List (String × Val))) (e : String)
    (h : toRecords raws = .error e) :
    e = "KeyError: data" ∨ e = "KeyError: collection" := by
  induction raws with
  | nil => simp [toRecords] at h
  | cons r rest ih =>
      simp only [toRecords] at h
      cases htr : toRecord r with
      | error e1 =>
          rw [htr] at h
          simp at h
          exact h ▸ toRecord_error_shape r e1 htr
      | ok rec =>
          rw [htr] at h
          cases hrest : toRecords rest with
          | error e2 =>
              rw [hrest] at h
              simp at h
              exact ih (h ▸ hrest)
          | ok recs =>
              rw [hrest] at h
              simp at h

theorem mem_contribs_of_mem {records : List Record} {r : Record} {path : String} {v : Val}
    (hr : r ∈ records) (hv : (path, v) ∈ flattenRec r) : v ∈ contribs records path := by
  induction records with
  | nil => cases hr
  | cons r0 rest ih =>
      rw [show contribs (r0 :: rest) path = occAt (flattenRec r0) path ++ contribs rest path
        from rfl]
      rcases List.mem_cons.mp hr with rfl | hr2
      · refine List.mem_append.mpr (.inl (List.mem_filterMap.mpr ⟨(path, v), hv, ?_⟩))
        simp
      · exact List.mem_append.mpr (.inr (ih hr2))

/-! Claim theorems. -/

/-- Claim C2: `infer_type` gives a boolean the tag "boolean" and never
"integer", an integer "integer", a float "number", a list "array", a mapping
"object", and any other non-null value "string"; and in the statistics
accumulated by `build`, a null value contributes only to the nullable flag of
its path — the type set never contains "null" and every tag in it was inferred
from a non-null contributed value. -/
theorem C2_type_inference_order :
    (∀ b, infer_type (Val.bool b) = "boolean" ∧ infer_type (Val.bool b) ≠ "integer")
    ∧ (∀ n, infer_type (Val.int n) = "integer")
    ∧ (∀ q, infer_type (Val.float q) = "number")
    ∧ (∀ xs, infer_type (Val.arr xs) = "array")
    ∧ (∀ kvs, infer_type (Val.obj kvs) = "object")
    ∧ (∀ s, infer_type (Val.str s) = "string")
    ∧ (∀ (records : List Record) (path : String) (st : FieldStat),
        lookupKey (buildStats records) path = some st →
          "null" ∉ st.types ∧ st.nullable = (contribs records path).any isNull ∧
          ∀ t ∈ st.types, ∃ v ∈ contribs records path, isNull v = false ∧ infer_type v = t) := by
  refine ⟨fun b => ⟨rfl, (by decide : ("boolean" : String) ≠ "integer")⟩,
    fun n => rfl, fun q => rfl, fun xs => rfl, fun kvs => rfl, fun s => rfl, ?_⟩
  intro records path st h
  obtain ⟨hne, rfl⟩ := statOf_of_lookup h
  refine ⟨?_, statOf_nullable _, fun t ht => (mem_statOf_types _ t).mp ht⟩
  intro ht
  obtain ⟨v, _, hnv, hiv⟩ := (mem_statOf_types _ _).mp ht
  exact infer_type_ne_null v hnv hiv

/-- Claim C2 witness: the statistics entry of path `$.c.a` built from a null
and a boolean sighting satisfies the null-contribution properties. -/
theorem C2_type_inference_order_witness :
    "null" ∉ (⟨2, true, ["True"], ["boolean"]⟩ : FieldStat).types
    ∧ (⟨2, true, ["True"], ["boolean"]⟩ : FieldStat).nullable =
        (contribs [{ collection := "c", data := Val.obj [("a", Val.null)] },
          { collection := "c", data := Val.obj [("a", Val.bool true)] }] "$.c.a").any isNull
    ∧ ∀ t ∈ (⟨2, true, ["True"], ["boolean"]⟩ : FieldStat).types,
        ∃ v ∈ contribs [{ collection := "c", data := Val.obj [("a", Val.null)] },
          { collection := "c", data := Val.obj [("a", Val.bool true)] }] "$.c.a",
          isNull v = false ∧ infer_type v = t :=
  C2_type_inference_order.2.2.2.2.2.2
    [{ collection := "c", data := Val.obj [("a", Val.null)] },
      { collection := "c", data := Val.obj [("a", Val.bool true)] }]
    "$.c.a" ⟨2, true, ["True"], ["boolean"]⟩ rfl

/-- Claim C3 counterexample: an empty dict reached at path `$.c.k` produces no
entry at all, contradicting the claim that an empty container at a path
produces an entry for that path mapping to the terminal value. -/
theorem C3_counterexample :
    flatten (Val.obj [("k", Val.obj [])]) "$.c" = []
    ∧ ¬ ∃ v, ("$.c.k", v) ∈ flatten (Val.obj [("k", Val.obj [])]) "$.c" := by
  refine ⟨rfl, ?_⟩
  rintro ⟨v, hv⟩
  rw [show flatten (Val.obj [("k", Val.obj [])]) "$.c" = [] from rfl] at hv
  exact List.not_mem_nil _ hv

/-- Claim C3 amended: `build` flattens `record.data` with prefix
`$.<collection>`; an object key `k` under path `p` contributes under `p.k`, a
list element at index `i` under `p[i]`, recursively, and a scalar or null at a
path yields that path mapped to the terminal value — but an empty dict or
empty list yields no entry at all.  Whenever the produced paths are free of
collisions, the code-side dict-building `flatten` agrees with the literal
recursive description `flatList`. -/
theorem C3_flatten_amended :
    (∀ r : Record, flattenRec r = flatten r.data ("$." ++ r.collection))
    ∧ (∀ (doc : Val) (pre : String), (keysOf (flatList doc pre)).Nodup →
        flatten doc pre = flatList doc pre)
    ∧ (∀ pre, flatten Val.null pre = [(pre, Val.null)])
    ∧ (∀ pre s, flatten (Val.str s) pre = [(pre, Val.str s)])
    ∧ (∀ pre n, flatten (Val.int n) pre = [(pre, Val.int n)])
    ∧ (∀ pre, flatten (Val.obj []) pre = [] ∧ flatten (Val.arr []) pre = []) :=
  ⟨fun _ => rfl, flatten_eq_flatList, fun _ => rfl, fun _ _ => rfl, fun _ _ => rfl,
    fun _ => ⟨rfl, rfl⟩⟩

/-- Claim C3 witness: on a concrete nested document with collision-free paths
the code-side `flatten` agrees with the spec-side recursive flattening. -/
theorem C3_flatten_amended_witness :
    (keysOf (flatList (Val.obj [("a", Val.int 1), ("b", Val.arr [Val.null, Val.str "x"])])
      "$.c")).Nodup
    ∧ flatten (Val.obj [("a", Val.int 1), ("b", Val.arr [Val.null, Val.str "x"])]) "$.c" =
        flatList (Val.obj [("a", Val.int 1), ("b", Val.arr [Val.null, Val.str "x"])]) "$.c" :=
  ⟨by decide, C3_flatten_amended.2.1
    (Val.obj [("a", Val.int 1), ("b", Val.arr [Val.null, Val.str "x"])]) "$.c" (by decide)⟩

/-- Claim C7: diffing a current schema against an absent previous schema
yields exactly the paths of the current fields in field order as `added`, no
`removed` and no `changed` keys, and the notes string "Initial schema.". -/
theorem C7_initial_diff (S : Schema) :
    SchemaGenerator.diff none S =
      { added := S.fields.map (fun f => f.path)
        removed := none
        changed := none
        notes := "Initial schema." } := rfl

/-- Claim C8: diffing a schema against itself yields empty added, removed and
changed lists and an empty notes string. -/
theorem C8_diff_self (S : Schema) :
    SchemaGenerator.diff (some S) S =
      { added := [], removed := some [], changed := some [], notes := "" } := by
  have hnd := nodup_keysOf_fieldMap S.fields
  have hfilter : (fieldMap S.fields).filter
      (fun p => (lookupKey (fieldMap S.fields) p.1).isNone) = [] := by
    rw [List.filter_eq_nil_iff]
    intro p hp
    obtain ⟨w, hw⟩ := Option.isSome_iff_exists.mp
      (lookupKey_isSome_of_mem (show (p.1, p.2) ∈ fieldMap S.fields from hp))
    simp [hw]
  have hchanged : (fieldMap S.fields).filterMap (fun p =>
      match lookupKey (fieldMap S.fields) p.1 with
      | some prevField =>
          if !listSetEq p.2.types prevField.types || p.2.nullable != prevField.nullable then
            some p.1
          else none
      | none => none) = [] := by
    rw [List.filterMap_eq_nil_iff]
    intro p hp
    have hl : lookupKey (fieldMap S.fields) p.1 = some p.2 :=
      lookupKey_eq_of_mem hnd (show (p.1, p.2) ∈ fieldMap S.fields from hp)
    rw [hl]
    simp [listSetEq_self]
  simp only [SchemaGenerator.diff]
  rw [hfilter, hchanged]
  simp
  rfl

/-- Claim C4: every emitted field's confidence equals
`min(0.99, count / max(1, total_record_count))` rounded to two decimal places,
where `count` is the number of values contributed at the field's path over the
given records and the total is the record count; consequently
`0 ≤ confidence ≤ 0.99`. -/
theorem C4_confidence (g : SchemaGenerator) (sid : String) (ver : Nat)
    (records : List Record) (prev : Option Schema) (now : String) (f : Field)
    (hf : f ∈ (g.build sid ver records prev now).1.fields) :
    f.confidence =
      ratRound2 (min (99 / 100 : Rat)
        (((contribs records f.path).length : Rat) / ((max 1 records.length : Nat) : Rat)))
    ∧ 0 ≤ f.confidence ∧ f.confidence ≤ 99 / 100 := by
  obtain ⟨p, hp, rfl⟩ := mem_build_fields.mp hf
  have hlk : lookupKey (buildStats records) p.1 = some p.2 :=
    lookupKey_eq_of_mem (nodup_keysOf_buildStats records)
      (show (p.1, p.2) ∈ buildStats records from hp)
  obtain ⟨hne, hst⟩ := statOf_of_lookup hlk
  have hcount : p.2.count = (contribs records p.1).length := by
    rw [hst, statOf_count]
  refine ⟨?_, ?_⟩
  · rw [mkField_confidence]
    simp only [mkField_path]
    rw [hcount]
  · rw [mkField_confidence]
    exact ratRound2_bounds _
      (le_min (by norm_num) (div_nonneg (Nat.cast_nonneg _) (Nat.cast_nonneg _)))
      (min_le_left _ _)

/-- Claim C4 witness: the single field of a one-record build satisfies the
confidence formula and bound. -/
theorem C4_confidence_witness :
    mkField 1 "$.c.a" ⟨1, false, ["1"], ["integer"]⟩ ∈
      (SchemaGenerator.build {} "s" 1 [recW4] none "t").1.fields
    ∧ ((mkField 1 "$.c.a" ⟨1, false, ["1"], ["integer"]⟩).confidence =
        ratRound2 (min (99 / 100 : Rat)
          (((contribs [recW4]
              (mkField 1 "$.c.a" ⟨1, false, ["1"], ["integer"]⟩).path).length : Rat) /
            ((max 1 [recW4].length : Nat) : Rat)))
      ∧ 0 ≤ (mkField 1 "$.c.a" ⟨1, false, ["1"], ["integer"]⟩).confidence
      ∧ (mkField 1 "$.c.a" ⟨1, false, ["1"], ["integer"]⟩).confidence ≤ 99 / 100) := by
  have hsort : sortStats (buildStats [recW4]) =
      [("$.c.a", (⟨1, false, ["1"], ["integer"]⟩ : FieldStat))] := rfl
  have hm : mkField 1 "$.c.a" ⟨1, false, ["1"], ["integer"]⟩ ∈
      (SchemaGenerator.build {} "s" 1 [recW4] none "t").1.fields := by
    rw [build_fields, hsort]
    exact show mkField 1 "$.c.a" ⟨1, false, ["1"], ["integer"]⟩ ∈
      [mkField 1 "$.c.a" ⟨1, false, ["1"], ["integer"]⟩] from List.mem_singleton.mpr rfl
  exact ⟨hm, C4_confidence {} "s" 1 [recW4] none "t" _ hm⟩

/-- Claim C5: the fields of a built schema are ordered by path, each field's
`suggested_index` holds exactly when its full path ends with the literal
"id", and the primary-key candidates are exactly the paths of the suggested
fields in the same order. -/
theorem C5_field_order (g : SchemaGenerator) (sid : String) (ver : Nat)
    (records : List Record) (prev : Option Schema) (now : String) :
    List.Pairwise (fun a b : Field => a.path ≤ b.path)
      (g.build sid ver records prev now).1.fields
    ∧ (∀ f ∈ (g.build sid ver records prev now).1.fields,
        f.suggested_index = f.path.endsWith "id")
    ∧ (g.build sid ver records prev now).1.primary_key_candidates =
        ((g.build sid ver records prev now).1.fields.filter
          (fun f => f.suggested_index)).map (fun f => f.path) := by
  refine ⟨build_fields_sorted g sid ver records prev now, ?_,
    build_primary g sid ver records prev now⟩
  intro f hf
  obtain ⟨p, _, rfl⟩ := mem_build_fields.mp hf
  rw [mkField_suggested]
  simp only [mkField_path]

/-- Claim C5 witness: a field whose path `$.c.uid` ends in "id" has its index
suggested in a concrete build. -/
theorem C5_field_order_witness :
    mkField 1 "$.c.uid" ⟨1, false, ["True"], ["boolean"]⟩ ∈
      (SchemaGenerator.build {} "s" 1 [recW5] none "t").1.fields
    ∧ (mkField 1 "$.c.uid" ⟨1, false, ["True"], ["boolean"]⟩).suggested_index =
        (mkField 1 "$.c.uid" ⟨1, false, ["True"], ["boolean"]⟩).path.endsWith "id" := by
  have hsort : sortStats (buildStats [recW5]) =
      [("$.c.uid", (⟨1, false, ["True"], ["boolean"]⟩ : FieldStat))] := rfl
  have hm : mkField 1 "$.c.uid" ⟨1, false, ["True"], ["boolean"]⟩ ∈
      (SchemaGenerator.build {} "s" 1 [recW5] none "t").1.fields := by
    rw [build_fields, hsort]
    exact show mkField 1 "$.c.uid" ⟨1, false, ["True"], ["boolean"]⟩ ∈
      [mkField 1 "$.c.uid" ⟨1, false, ["True"], ["boolean"]⟩] from List.mem_singleton.mpr rfl
  exact ⟨hm, (C5_field_order {} "s" 1 [recW5] none "t").2.1 _ hm⟩

/-- Claim C6: once any record contributes a null at a path, the emitted field
at that path exists and its nullable flag is true, regardless of what other
records contribute at the same path. -/
theorem C6_nullable_sticky (g : SchemaGenerator) (sid : String) (ver : Nat)
    (records : List Record) (prev : Option Schema) (now : String) (path : String)
    (r : Record) (hr : r ∈ records) (hnull : (path, Val.null) ∈ flattenRec r) :
    (∃ f ∈ (g.build sid ver records prev now).1.fields, f.path = path)
    ∧ ∀ f ∈ (g.build sid ver records prev now).1.fields, f.path = path →
        f.nullable = true := by
  have hcm : Val.null ∈ contribs records path := mem_contribs_of_mem hr hnull
  have hne : contribs records path ≠ [] := List.ne_nil_of_mem hcm
  have hlk := lookupKey_buildStats_of_ne_nil records path hne
  have hmem : (path, statOf (contribs records path)) ∈ buildStats records :=
    mem_of_lookupKey_eq hlk
  have hnul : (statOf (contribs records path)).nullable = true := by
    rw [statOf_nullable]
    exact List.any_eq_true.mpr ⟨Val.null, hcm, rfl⟩
  constructor
  · exact ⟨mkField records.length path (statOf (contribs records path)),
      mem_build_fields.mpr ⟨(path, statOf (contribs records path)), hmem, rfl⟩,
      mkField_path _ _ _⟩
  · intro f hf hfp
    obtain ⟨p, hp, rfl⟩ := mem_build_fields.mp hf
    rw [mkField_nullable]
    have hp1 : p.1 = path := by simpa using hfp
    have hlk2 : lookupKey (buildStats records) p.1 = some p.2 :=
      lookupKey_eq_of_mem (nodup_keysOf_buildStats records)
        (show (p.1, p.2) ∈ buildStats records from hp)
    rw [hp1, hlk] at hlk2
    have hst : p.2 = statOf (contribs records path) :=
      (Option.some_injective _ hlk2).symm
    rw [hst, hnul]

/-- Claim C6 witness: a null contributed at `$.c.a` by the first of two
records keeps the emitted field nullable although the second record
contributes a boolean there. -/
theorem C6_nullable_sticky_witness :
    (∃ f ∈ (SchemaGenerator.build {} "s" 1 [recW6a, recW6b] none "t").1.fields,
      f.path = "$.c.a")
    ∧ ∀ f ∈ (SchemaGenerator.build {} "s" 1 [recW6a, recW6b] none "t").1.fields,
        f.path = "$.c.a" → f.nullable = true :=
  C6_nullable_sticky {} "s" 1 [recW6a, recW6b] none "t" "$.c.a" recW6a
    (List.mem_cons_self _ _)
    (by rw [show flattenRec recW6a = [("$.c.a", Val.null)] from rfl]
        exact List.mem_singleton.mpr rfl)

/-- Claim C9 counterexample: a record dict without a `data` key makes the
build fail with a `KeyError`, not with an `InvalidRecordShape` error — no
such error exists anywhere in the code. -/
theorem C9_counterexample :
    SchemaGenerator.buildRaw {} "s" 1 [[("collection", Val.str "c")]] none "t" =
      .error "KeyError: data"
    ∧ ("KeyError: data" : String) ≠ "InvalidRecordShape" := by
  exact ⟨rfl, by decide⟩

/-- Claim C9 amended: the only hard failure the statistics aggregation of
`build` can raise is a `KeyError` for a record dict missing its `data` or
`collection` key; every record carrying both keys is accepted, whatever the
shape of its data value, and the build returns normally. -/
theorem C9_keyerror_amended (g : SchemaGenerator) (sid : String) (ver : Nat)
    (raws : List (List (String × Val))) (prev : Option Schema) (now : String) :
    ((∀ r ∈ raws, (lookupKey r "data").isSome ∧ (lookupKey r "collection").isSome) →
      ∃ out, g.buildRaw sid ver raws prev now = .ok out)
    ∧ ∀ e, g.buildRaw sid ver raws prev now = .error e →
        e = "KeyError: data" ∨ e = "KeyError: collection" := by
  constructor
  · intro h
    obtain ⟨recs, hrecs⟩ := toRecords_ok raws h
    exact ⟨g.build sid ver recs prev now, by simp [SchemaGenerator.buildRaw, hrecs]⟩
  · intro e he
    unfold SchemaGenerator.buildRaw at he
    cases ht : toRecords raws with
    | error e2 =>
        rw [ht] at he
        simp at he
        exact toRecords_error_shape raws e (he ▸ ht)
    | ok recs =>
        rw [ht] at he
        simp at he

/-- Claim C9 witness: a raw record dict carrying both keys builds
successfully. -/
theorem C9_keyerror_amended_witness :
    ∃ out, SchemaGenerator.buildRaw {} "s" 1
      [[("collection", Val.str "c"), ("data", Val.int 1)]] none "t" = .ok out :=
  (C9_keyerror_amended {} "s" 1 [[("collection", Val.str "c"), ("data", Val.int 1)]]
    none "t").1 (by decide)

/-- Claim C10: a path all of whose contributed values are null gets the
default type list `["string"]` at field-emission time, a true nullable flag,
and a null example value. -/
theorem C10_all_null_string_default (g : SchemaGenerator) (sid : String) (ver : Nat)
    (records : List Record) (prev : Option Schema) (now : String) (path : String)
    (hne : contribs records path ≠ [])
    (hall : ∀ v ∈ contribs records path, isNull v = true) :
    (∃ f ∈ (g.build sid ver records prev now).1.fields, f.path = path)
    ∧ ∀ f ∈ (g.build sid ver records prev now).1.fields, f.path = path →
        f.types = ["string"] ∧ f.nullable = true ∧ f.example_value = none := by
  have hlk := lookupKey_buildStats_of_ne_nil records path hne
  have hmem : (path, statOf (contribs records path)) ∈ buildStats records :=
    mem_of_lookupKey_eq hlk
  have htyp : (statOf (contribs records path)).types = [] :=
    statOf_types_of_all_null _ hall
  have hex : (statOf (contribs records path)).examples = [] :=
    statOf_examples_of_all_null _ hall
  have hnul : (statOf (contribs records path)).nullable = true := by
    rw [statOf_nullable]
    obtain ⟨v, rest, hv⟩ := List.exists_cons_of_ne_nil hne
    refine List.any_eq_true.mpr ⟨v, ?_, hall v ?_⟩ <;>
      · rw [hv]
        exact List.mem_cons_self _ _
  constructor
  · exact ⟨mkField records.length path (statOf (contribs records path)),
      mem_build_fields.mpr ⟨(path, statOf (contribs records path)), hmem, rfl⟩,
      mkField_path _ _ _⟩
  · intro f hf hfp
    obtain ⟨p, hp, rfl⟩ := mem_build_fields.mp hf
    have hp1 : p.1 = path := by simpa using hfp
    have hlk2 : lookupKey (buildStats records) p.1 = some p.2 :=
      lookupKey_eq_of_mem (nodup_keysOf_buildStats records)
        (show (p.1, p.2) ∈ buildStats records from hp)
    rw [hp1, hlk] at hlk2
    have hst : p.2 = statOf (contribs records path) :=
      (Option.some_injective _ hlk2).symm
    refine ⟨?_, ?_, ?_⟩
    · rw [mkField_types, hst, htyp]
      rfl
    · rw [mkField_nullable, hst, hnul]
    · rw [mkField_example_value, hst, hex]
      rfl

/-- Claim C10 witness: the all-null path `$.c.b` of a one-record build emits
types `["string"]`, a true nullable flag and no example. -/
theorem C10_all_null_string_default_witness :
    (∃ f ∈ (SchemaGenerator.build {} "s" 1 [recW10] none "t").1.fields, f.path = "$.c.b")
    ∧ ∀ f ∈ (SchemaGenerator.build {} "s" 1 [recW10] none "t").1.fields, f.path = "$.c.b" →
        f.types = ["string"] ∧ f.nullable = true ∧ f.example_value = none :=
  C10_all_null_string_default {} "s" 1 [recW10] none "t" "$.c.b"
    (by rw [show contribs [recW10] "$.c.b" = [Val.null] from rfl]
        exact List.cons_ne_nil _ _)
    (by rw [show contribs [recW10] "$.c.b" = [Val.null] from rfl]
        intro v hv
        obtain rfl := List.mem_singleton.mp hv
        rfl)

end Etl
